import Mathlib

/-!
# Verification of the blockstack-core NAMESPACE_REVEAL codec and user data registry

Shallow embedding of `blockstore/lib/operations/namespacereveal.py` and
`blockstack_cli_0.14.1/blockstack_client/user.py`.

Python byte strings are modelled as `List Nat` (each element `< 256`),
text strings as `List Char`, Python `float` as `ℚ` (exact arithmetic;
`int()` truncation on non-negative values is `Int.floor`), Python `dict`
as an association list with unique keys, and a raised exception as
`Option.none` / `Except.error`.
-/

namespace NamespaceReveal

/-! ## Constants (`Modelled from the spec:` the `LENGTHS` table and
`NAMESPACE_LIFE_INFINITE` come from `blockstore/lib/config.py`, which is not
part of the provided sources; the spec's wire-format table gives the widths
4 / 7 / 4 / 2 / ≤ 19 and the infinite-lifetime sentinel `0xFFFFFFFF`.) -/

def LENGTHS_blockchain_id_namespace_life : Nat := 4
def LENGTHS_blockchain_id_namespace_cost : Nat := 7
def LENGTHS_blockchain_id_namespace_price_decay : Nat := 4
def LENGTHS_blockchain_id_namespace_version : Nat := 2
def LENGTHS_blockchain_id_namespace_id : Nat := 19

def NAMESPACE_LIFE_INFINITE : Int := 0xffffffff

/-- Modelled from the spec: `is_b40` from `blockstore/lib/b40.py` (not among
the provided sources).  The b40 alphabet is the digits, the lowercase
letters, and `-`, `_`, `.`, `+`; `is_b40 s` checks every byte of `s` is in
that alphabet (vacuously true for the empty string). -/
def b40_bytes : List Nat :=
  (List.range 10).map (fun d => 48 + d) ++ (List.range 26).map (fun a => 97 + a) ++
    [45, 95, 46, 43]

def is_b40 (s : List Nat) : Bool := s.all (fun b => b ∈ b40_bytes)

/-! ## Fixed-point codec (`namespace_decay_to_float`, `namespace_decay_to_fixpoint`) -/

/-- `namespace_decay_to_float`: upper 8 bits integer part, lower 24 bits
fractional part. -/
def namespace_decay_to_float (namespace_decay_fixedpoint : Nat) : ℚ :=
  let ipart : Nat := namespace_decay_fixedpoint >>> 24
  let fpart : Nat := namespace_decay_fixedpoint &&& 0x00ffffff
  (ipart : ℚ) + (fpart : ℚ) / ((1 <<< 24 : Nat) : ℚ)

/-- `namespace_decay_to_fixpoint`: convert a number to the 8.24 fixed-point
decay rate; `none` if negative or the integer part exceeds 255.  Python's
`int()` truncates toward zero, which on the non-negative values reached here
is `Int.floor`. -/
def namespace_decay_to_fixpoint (namespace_decay_float : ℚ) : Option Nat :=
  if namespace_decay_float < 0 then none
  else
    let ipart : Int := ⌊namespace_decay_float⌋
    if ipart > 255 then none
    else
      let fpart : ℚ := namespace_decay_float - (ipart : ℚ)
      some ((ipart.toNat <<< 24) ||| (⌊fpart * (((1 <<< 24 : Nat) : ℚ))⌋).toNat)

/-! ## Hex strings -/

def hexDigitChar (n : Nat) : Char :=
  "0123456789abcdef".toList.getD n '0'

/-- Minimal-length lowercase hex digits of a natural number (`"%x"`,
producing `"0"` for zero). -/
def hexDigits (v : Nat) : List Char :=
  if h : v < 16 then [hexDigitChar v]
  else hexDigits (v / 16) ++ [hexDigitChar (v % 16)]
decreasing_by simp only [not_lt] at h; exact Nat.div_lt_self (by omega) (by omega)

/-- Python `"%.Px" % v` for `v ≥ 0`: hex digits left-padded with `'0'` to at
least `prec` characters. -/
def hexPad (v : Nat) (prec : Nat) : List Char :=
  List.replicate (prec - (hexDigits v).length) '0' ++ hexDigits v

/-- Python `"%0.Px" % v` including negative values: a sign followed by the
padded digits of the absolute value. -/
def pyHexFmt (v : Int) (prec : Nat) : List Char :=
  if v < 0 then '-' :: hexPad v.natAbs prec else hexPad v.toNat prec

/-- `serialize_int`: serialize an integer to a hex string of
`numbytes * 2` characters; `none` models the raised overflow exception.
The source rejects `int_field >= 2**(numbytes*8)` and
`int_field < -(2**(numbytes*8))`, then formats with `"%0.(2*numbytes)x"`
and prepends `'0'` if the result has odd length. -/
def serialize_int (int_field : Int) (numbytes : Nat) : Option (List Char) :=
  if int_field ≥ (2 : Int) ^ (numbytes * 8) ∨ int_field < -((2 : Int) ^ (numbytes * 8)) then
    none
  else
    let hex_str := pyHexFmt int_field (numbytes * 2)
    some (if hex_str.length % 2 ≠ 0 then '0' :: hex_str else hex_str)

/-- `binascii.hexlify`: each byte becomes two lowercase hex characters. -/
def hexlify (bs : List Nat) : List Char :=
  bs.flatMap (fun b => [hexDigitChar (b / 16), hexDigitChar (b % 16)])

/-- Inverse of `hexlify`: consume hex characters two at a time (modelling
`binascii.unhexlify`, used by the framing collaborator to turn the script's
hex into the on-chain bytes). -/
def hexCharVal (c : Char) : Nat :=
  if c.toNat ≥ 97 then c.toNat - 87 else c.toNat - 48

def unhexlify : List Char → List Nat
  | c1 :: c2 :: rest => (hexCharVal c1 * 16 + hexCharVal c2) :: unhexlify rest
  | _ => []

/-! ## `build` -/

inductive BuildErr where
  | invalidNamespaceId
  | invalidDecayRate
  | costOutOfRange
  | decayOutOfRange
  | intOverflow (numbytes : Nat)
deriving DecidableEq, Repr

/-- `build`: produce the operation-specific payload (as the hex string of the
bytes that follow the 3-byte magic+opcode prefix).

`Modelled from the spec:` the collaborators `blockstore_script_to_hex` and
`add_magic_bytes` are not among the provided sources; per the spec's wire
table the payload after the 3-byte framing prefix is exactly
`lifetime(4) ‖ satoshi_cost(7) ‖ decay_fixedpoint(4) ‖ version(2) ‖
namespace_id`, i.e. the concatenation of the field hex strings the source
interpolates into the readable script.  `reveal_addr` is accepted but not
used in the payload, as in the source. -/
def build (namespace_id : List Nat) (version : Int) (reveal_addr : List Char)
    (lifetime : Int) (satoshi_cost : Int) (price_decay_rate : ℚ) :
    Except BuildErr (List Char) :=
  let _ := reveal_addr
  if ¬ is_b40 namespace_id ∨ 43 ∈ namespace_id ∨ namespace_id.count 46 > 0 then
    .error .invalidNamespaceId
  else if namespace_id.length > LENGTHS_blockchain_id_namespace_id then
    .error .invalidNamespaceId
  else
    match namespace_decay_to_fixpoint price_decay_rate with
    | none => .error .invalidDecayRate
    | some price_decay_rate_fixedpoint =>
      let lifetime :=
        if lifetime < 0 ∨ lifetime > 2 ^ 32 - 1 then NAMESPACE_LIFE_INFINITE else lifetime
      if satoshi_cost < 0 ∨ satoshi_cost > 2 ^ 64 - 1 then
        .error .costOutOfRange
      else if (price_decay_rate_fixedpoint : Int) < 0 ∨
          (price_decay_rate_fixedpoint : Int) > 2 ^ 32 - 1 then
        .error .decayOutOfRange
      else
        match serialize_int lifetime 4 with
        | none => .error (.intOverflow 4)
        | some life_hex =>
          match serialize_int satoshi_cost 7 with
          | none => .error (.intOverflow 7)
          | some satoshi_cost_hex =>
            match serialize_int (price_decay_rate_fixedpoint : Int) 4 with
            | none => .error (.intOverflow 4)
            | some price_decay_hex =>
              match serialize_int version 2 with
              | none => .error (.intOverflow 2)
              | some version_hex =>
                .ok (life_hex ++ satoshi_cost_hex ++ price_decay_hex ++ version_hex ++
                  hexlify namespace_id)

/-! ## `parse` -/

/-- Big-endian value of a byte string (`int(hexlify(s), 16)` for nonempty `s`). -/
def beVal (bs : List Nat) : Nat := bs.foldl (fun acc b => acc * 256 + b) 0

/-- `int(hexlify(bin_payload[off:off+len]), 16)`: `none` models the
`ValueError` Python raises on `int('', 16)` when the slice is empty. -/
def readBE (l : List Nat) (off len : Nat) : Option Nat :=
  let s := (l.drop off).take len
  if s = [] then none else some (beVal s)

structure NSRecord (β : Type) where
  opcode : List Char
  lifetime : Nat
  cost : Nat
  price_decay : ℚ
  namespace_id : List Nat
  namespace_id_hash : β
  version : Nat
deriving DecidableEq

/-- `parse`: read the fields of a NAMESPACE_REVEAL payload (the first three
framing bytes already stripped).  `hash_name` is the external commitment
hashing collaborator (`blockstore/lib/hashing.py`, out of scope), passed in
as a function. -/
def parse {σ β : Type} (hash_name : List Nat → σ → σ → β)
    (bin_payload : List Nat) (sender : σ) (recipient_address : σ) :
    Option (NSRecord β) := do
  let life ← readBE bin_payload 0 LENGTHS_blockchain_id_namespace_life
  let cost ← readBE bin_payload 4 LENGTHS_blockchain_id_namespace_cost
  let decay_fixedpoint ← readBE bin_payload 11 LENGTHS_blockchain_id_namespace_price_decay
  let version ← readBE bin_payload 15 LENGTHS_blockchain_id_namespace_version
  let namespace_id := bin_payload.drop 17
  some
    { opcode := "NAMESPACE_REVEAL".toList
      lifetime := life
      cost := cost
      price_decay := namespace_decay_to_float decay_fixedpoint
      namespace_id := namespace_id
      namespace_id_hash := hash_name namespace_id sender recipient_address
      version := version }

/-! ## Byte/hex infrastructure lemmas -/

/-- The big-endian `n`-byte representation of a value. -/
def bytesBE : Nat → Nat → List Nat
  | 0, _ => []
  | n + 1, v => bytesBE n (v / 256) ++ [v % 256]

theorem bytesBE_length (n v : Nat) : (bytesBE n v).length = n := by
  induction n generalizing v with
  | zero => rfl
  | succ n ih => simp [bytesBE, ih]

theorem bytesBE_lt (n v : Nat) : ∀ b ∈ bytesBE n v, b < 256 := by
  induction n generalizing v with
  | zero => simp [bytesBE]
  | succ n ih =>
    intro b hb
    simp only [bytesBE, List.mem_append, List.mem_singleton] at hb
    rcases hb with hb | hb
    · exact ih _ b hb
    · omega

theorem beVal_append (xs : List Nat) (b : Nat) :
    beVal (xs ++ [b]) = beVal xs * 256 + b := by
  simp [beVal, List.foldl_append]

theorem beVal_bytesBE (n v : Nat) (h : v < 2 ^ (8 * n)) : beVal (bytesBE n v) = v := by
  induction n generalizing v with
  | zero =>
    have hv : v = 0 := by
      rw [show (8 : Nat) * 0 = 0 from rfl, pow_zero] at h
      omega
    subst hv
    rfl
  | succ n ih =>
    have hpow : 2 ^ (8 * (n + 1)) = 2 ^ (8 * n) * 256 := by ring
    have hdiv : v / 256 < 2 ^ (8 * n) := by
      rw [hpow] at h
      exact Nat.div_lt_of_lt_mul (by omega)
    rw [bytesBE, beVal_append, ih _ hdiv]
    omega

theorem hexCharVal_hexDigitChar : ∀ n, n < 16 → hexCharVal (hexDigitChar n) = n := by
  decide

theorem hexlify_append (xs ys : List Nat) :
    hexlify (xs ++ ys) = hexlify xs ++ hexlify ys := by
  simp [hexlify]

theorem hexlify_length (bs : List Nat) : (hexlify bs).length = 2 * bs.length := by
  induction bs with
  | nil => rfl
  | cons b bs ih => simp [hexlify] at ih ⊢; omega

theorem unhexlify_hexlify (bs : List Nat) (h : ∀ b ∈ bs, b < 256) :
    unhexlify (hexlify bs) = bs := by
  induction bs with
  | nil => rfl
  | cons b bs ih =>
    have hb : b < 256 := h b (by simp)
    have h1 : b / 16 < 16 := by omega
    have h2 : b % 16 < 16 := by omega
    simp only [hexlify, List.flatMap_cons, List.cons_append, List.nil_append, unhexlify]
    rw [hexCharVal_hexDigitChar _ h1, hexCharVal_hexDigitChar _ h2]
    have : b / 16 * 16 + b % 16 = b := by omega
    rw [this]
    exact congrArg (b :: ·) (ih fun x hx => h x (by simp [hx]))

/-- Zero-padded fixed-width big-endian hex digits. -/
def toHexBE : Nat → Nat → List Char
  | 0, _ => []
  | d + 1, v => toHexBE d (v / 16) ++ [hexDigitChar (v % 16)]

theorem toHexBE_zero (d : Nat) : toHexBE d 0 = List.replicate d '0' := by
  induction d with
  | zero => rfl
  | succ d ih =>
    rw [toHexBE, Nat.zero_div, ih, Nat.zero_mod]
    rw [List.replicate_succ' d '0']
    rfl

theorem hexDigits_of_lt (v : Nat) (h : v < 16) : hexDigits v = [hexDigitChar v] := by
  rw [hexDigits]
  simp [h]

theorem hexDigits_of_ge (v : Nat) (h : 16 ≤ v) :
    hexDigits v = hexDigits (v / 16) ++ [hexDigitChar (v % 16)] := by
  rw [hexDigits]
  simp [Nat.not_lt_of_le h]

theorem hexPad_eq_toHexBE (d v : Nat) (hd : 1 ≤ d) (hv : v < 16 ^ d) :
    hexPad v d = toHexBE d v := by
  induction d generalizing v with
  | zero => omega
  | succ d ih =>
    by_cases hsmall : v < 16
    · rw [hexPad, hexDigits_of_lt v hsmall]
      rw [toHexBE, Nat.div_eq_of_lt hsmall, toHexBE_zero, Nat.mod_eq_of_lt hsmall]
      simp
    · push_neg at hsmall
      have hd1 : 1 ≤ d := by
        by_contra hlt
        have : d = 0 := by omega
        subst this
        norm_num at hv
        omega
      have hdiv : v / 16 < 16 ^ d := by
        rw [pow_succ] at hv
        exact Nat.div_lt_of_lt_mul (by omega)
      have := ih (v / 16) hd1 hdiv
      rw [hexPad, hexDigits_of_ge v hsmall]
      rw [toHexBE, ← this, hexPad]
      have hlen : (hexDigits (v / 16) ++ [hexDigitChar (v % 16)]).length =
          (hexDigits (v / 16)).length + 1 := by simp
      rw [hlen]
      have : d + 1 - ((hexDigits (v / 16)).length + 1) = d - (hexDigits (v / 16)).length := by
        omega
      rw [this, List.append_assoc]

theorem toHexBE_eq_hexlify_bytesBE (n v : Nat) :
    toHexBE (2 * n) v = hexlify (bytesBE n v) := by
  induction n generalizing v with
  | zero => rfl
  | succ n ih =>
    have h2 : 2 * (n + 1) = (2 * n + 1) + 1 := by omega
    rw [h2, toHexBE, toHexBE, Nat.div_div_eq_div_mul]
    rw [bytesBE, hexlify_append, ih]
    have e1 : v / 16 % 16 = v % 256 / 16 := by omega
    have e2 : v % 16 = v % 256 % 16 := by omega
    rw [e1, e2]
    simp [hexlify]

theorem serialize_int_of_nonneg (v : Int) (n : Nat) (hn : 1 ≤ n)
    (h0 : 0 ≤ v) (h : v < 2 ^ (n * 8)) :
    serialize_int v n = some (hexlify (bytesBE n v.toNat)) := by
  rw [serialize_int]
  have hcond : ¬ (v ≥ (2 : Int) ^ (n * 8) ∨ v < -((2 : Int) ^ (n * 8))) := by
    push_neg
    constructor
    · exact h
    · have : (0 : Int) < 2 ^ (n * 8) := by positivity
      omega
  rw [if_neg hcond]
  have hvnat : v.toNat < 16 ^ (n * 2) := by
    have h16 : (16 : Nat) ^ (n * 2) = 2 ^ (n * 8) := by
      rw [show (16 : Nat) = 2 ^ 4 from rfl, ← pow_mul]
      ring_nf
    rw [h16]
    have : ((2 : Nat) ^ (n * 8) : Int) = (2 : Int) ^ (n * 8) := by push_cast; ring
    omega
  have hfmt : pyHexFmt v (n * 2) = toHexBE (n * 2) v.toNat := by
    rw [pyHexFmt, if_neg (by omega)]
    exact hexPad_eq_toHexBE (n * 2) v.toNat (by omega) hvnat
  rw [hfmt]
  have hb : n * 2 = 2 * n := by omega
  rw [hb, toHexBE_eq_hexlify_bytesBE]
  have hlen : (hexlify (bytesBE n v.toNat)).length % 2 = 0 := by
    rw [hexlify_length]
    omega
  simp [hlen]

/-! ## Fixed-point codec lemmas -/

theorem is_b40_bytes_lt (ns : List Nat) (h : is_b40 ns = true) : ∀ b ∈ ns, b < 256 := by
  intro b hb
  have hmem : b ∈ b40_bytes := by
    have := List.all_eq_true.mp h b hb
    simpa using this
  simp [b40_bytes] at hmem
  rcases hmem with ⟨d, hd, rfl⟩ | ⟨a, ha, rfl⟩ | rfl | rfl | rfl | rfl <;> omega

theorem fixpoint_le (q : ℚ) (fp : Nat) (h : namespace_decay_to_fixpoint q = some fp) :
    fp ≤ 2 ^ 32 - 1 := by
  simp only [namespace_decay_to_fixpoint] at h
  split at h
  · exact absurd h (by simp)
  next hq =>
    split at h
    next hip => exact absurd h (by simp)
    next hip =>
      have hfp := Option.some.inj h
      push_neg at hq hip
      have hq0 : (0 : ℚ) ≤ q := not_lt.mp (by exact fun hc => absurd hc (not_lt.mpr hq))
      have hfl0 : (0 : ℤ) ≤ ⌊q⌋ := Int.floor_nonneg.mpr hq0
      have hfrac0 : (0 : ℚ) ≤ q - (⌊q⌋ : ℚ) := by
        have := Int.floor_le q
        linarith
      have hfrac1 : q - (⌊q⌋ : ℚ) < 1 := by
        have := Int.lt_floor_add_one q
        linarith
      have hnat : (1 <<< 24 : Nat) = 16777216 := by decide
      have hc : ((1 <<< 24 : Nat) : ℚ) = (16777216 : ℚ) := by rw [hnat]; norm_num
      have hfb : ⌊(q - (⌊q⌋ : ℚ)) * ((1 <<< 24 : Nat) : ℚ)⌋ < 16777216 := by
        rw [hc]
        rw [Int.floor_lt]
        push_cast
        nlinarith
      have ha : (⌊q⌋).toNat ≤ 255 := by omega
      have hb : (⌊(q - (⌊q⌋ : ℚ)) * ((1 <<< 24 : Nat) : ℚ)⌋).toNat < 2 ^ 24 := by
        have : (16777216 : ℤ) = 2 ^ 24 := by norm_num
        omega
      have h1 : (⌊q⌋).toNat <<< 24 < 2 ^ 32 := by
        rw [Nat.shiftLeft_eq]
        calc (⌊q⌋).toNat * 2 ^ 24 ≤ 255 * 2 ^ 24 := by
              exact Nat.mul_le_mul_right _ ha
          _ < 2 ^ 32 := by norm_num
      have h2 : (⌊(q - (⌊q⌋ : ℚ)) * ((1 <<< 24 : Nat) : ℚ)⌋).toNat < 2 ^ 32 := by
        calc _ < 2 ^ 24 := hb
          _ < 2 ^ 32 := by norm_num
      have := Nat.or_lt_two_pow h1 h2
      omega

theorem fixpoint_zero : namespace_decay_to_fixpoint 0 = some 0 := by
  simp [namespace_decay_to_fixpoint]

/-! ## `build` success and `parse` behaviour on well-formed payloads -/

theorem build_ok (ns : List Nat) (version lifetime satoshi_cost : Nat)
    (addr : List Char) (q : ℚ) (fix : Nat)
    (hns : is_b40 ns = true) (hplus : 43 ∉ ns) (hdot : ns.count 46 = 0)
    (hlen : ns.length ≤ LENGTHS_blockchain_id_namespace_id)
    (hfix : namespace_decay_to_fixpoint q = some fix)
    (hlife : lifetime ≤ 2 ^ 32 - 1) (hcost : satoshi_cost < 2 ^ 56)
    (hver : version < 2 ^ 16) :
    build ns (version : Int) addr (lifetime : Int) (satoshi_cost : Int) q =
      .ok (hexlify (bytesBE 4 lifetime ++ bytesBE 7 satoshi_cost ++
        bytesBE 4 fix ++ bytesBE 2 version ++ ns)) := by
  have hfixle : fix ≤ 2 ^ 32 - 1 := fixpoint_le q fix hfix
  have hc1 : ¬ (¬ is_b40 ns = true ∨ 43 ∈ ns ∨ ns.count 46 > 0) := by
    push_neg
    exact ⟨hns, hplus, by omega⟩
  have hc2 : ¬ (ns.length > LENGTHS_blockchain_id_namespace_id) := by omega
  have hclife : ¬ ((lifetime : Int) < 0 ∨ (lifetime : Int) > 2 ^ 32 - 1) := by
    push_neg
    constructor
    · positivity
    · have : ((2 : Int) ^ 32 - 1) = ((2 ^ 32 - 1 : Nat) : Int) := by norm_num
      rw [this]
      exact_mod_cast hlife
  have hccost : ¬ ((satoshi_cost : Int) < 0 ∨ (satoshi_cost : Int) > 2 ^ 64 - 1) := by
    push_neg
    constructor
    · positivity
    · have h1 : (satoshi_cost : Int) < 2 ^ 56 := by exact_mod_cast hcost
      omega
  have hcfix : ¬ (((fix : Nat) : Int) < 0 ∨ ((fix : Nat) : Int) > 2 ^ 32 - 1) := by
    push_neg
    constructor
    · positivity
    · have : ((2 : Int) ^ 32 - 1) = ((2 ^ 32 - 1 : Nat) : Int) := by norm_num
      rw [this]
      exact_mod_cast hfixle
  have hlife' : lifetime < 2 ^ (4 * 8) := by
    have h := hlife
    norm_num at h ⊢
    omega
  have hcost' : satoshi_cost < 2 ^ (7 * 8) := by
    have h := hcost
    norm_num at h ⊢
    omega
  have hfix' : fix < 2 ^ (4 * 8) := by
    have h := hfixle
    norm_num at h ⊢
    omega
  have hver' : version < 2 ^ (2 * 8) := by
    have h := hver
    norm_num at h ⊢
    omega
  have hs1 : serialize_int (lifetime : Int) 4 = some (hexlify (bytesBE 4 lifetime)) := by
    have := serialize_int_of_nonneg (lifetime : Int) 4 (by norm_num) (by positivity)
      (by exact_mod_cast hlife')
    simpa using this
  have hs2 : serialize_int (satoshi_cost : Int) 7 = some (hexlify (bytesBE 7 satoshi_cost)) := by
    have := serialize_int_of_nonneg (satoshi_cost : Int) 7 (by norm_num) (by positivity)
      (by exact_mod_cast hcost')
    simpa using this
  have hs3 : serialize_int ((fix : Nat) : Int) 4 = some (hexlify (bytesBE 4 fix)) := by
    have := serialize_int_of_nonneg ((fix : Nat) : Int) 4 (by norm_num) (by positivity)
      (by exact_mod_cast hfix')
    simpa using this
  have hs4 : serialize_int (version : Int) 2 = some (hexlify (bytesBE 2 version)) := by
    have := serialize_int_of_nonneg (version : Int) 2 (by norm_num) (by positivity)
      (by exact_mod_cast hver')
    simpa using this
  simp only [build, if_neg hc1, if_neg hc2, hfix, if_neg hclife, if_neg hccost,
    if_neg hcfix, hs1, hs2, hs3, hs4]
  rw [← hexlify_append, ← hexlify_append, ← hexlify_append, ← hexlify_append]

theorem parse_payload {σ β : Type} (hash_name : List Nat → σ → σ → β)
    (sender recip : σ) (L C F V : Nat) (ns : List Nat)
    (hL : L < 2 ^ (8 * 4)) (hC : C < 2 ^ (8 * 7)) (hF : F < 2 ^ (8 * 4))
    (hV : V < 2 ^ (8 * 2)) :
    parse hash_name
        (bytesBE 4 L ++ bytesBE 7 C ++ bytesBE 4 F ++ bytesBE 2 V ++ ns) sender recip =
      some
        { opcode := "NAMESPACE_REVEAL".toList
          lifetime := L
          cost := C
          price_decay := namespace_decay_to_float F
          namespace_id := ns
          namespace_id_hash := hash_name ns sender recip
          version := V } := by
  set payload := bytesBE 4 L ++ bytesBE 7 C ++ bytesBE 4 F ++ bytesBE 2 V ++ ns with hpay
  have hd0 : payload.drop 0 = payload := List.drop_zero payload
  have hd4 : payload.drop 4 = bytesBE 7 C ++ bytesBE 4 F ++ bytesBE 2 V ++ ns := by
    rw [hpay, List.append_assoc, List.append_assoc, List.append_assoc]
    rw [List.drop_left' (bytesBE_length 4 L)]
    simp [List.append_assoc]
  have hd11 : payload.drop 11 = bytesBE 4 F ++ bytesBE 2 V ++ ns := by
    have : payload.drop 11 = (payload.drop 4).drop 7 := by
      rw [List.drop_drop]
    rw [this, hd4, List.append_assoc, List.append_assoc]
    rw [List.drop_left' (bytesBE_length 7 C)]
    simp [List.append_assoc]
  have hd15 : payload.drop 15 = bytesBE 2 V ++ ns := by
    have : payload.drop 15 = (payload.drop 11).drop 4 := by
      rw [List.drop_drop]
    rw [this, hd11, List.append_assoc]
    rw [List.drop_left' (bytesBE_length 4 F)]
  have hd17 : payload.drop 17 = ns := by
    have : payload.drop 17 = (payload.drop 15).drop 2 := by
      rw [List.drop_drop]
    rw [this, hd15, List.drop_left' (bytesBE_length 2 V)]
  have ht4 : payload.take 4 = bytesBE 4 L := by
    rw [hpay, List.append_assoc, List.append_assoc, List.append_assoc]
    exact List.take_left' (bytesBE_length 4 L)
  have ht7 : (payload.drop 4).take 7 = bytesBE 7 C := by
    rw [hd4, List.append_assoc, List.append_assoc]
    exact List.take_left' (bytesBE_length 7 C)
  have ht11 : (payload.drop 11).take 4 = bytesBE 4 F := by
    rw [hd11, List.append_assoc]
    exact List.take_left' (bytesBE_length 4 F)
  have ht15 : (payload.drop 15).take 2 = bytesBE 2 V := by
    rw [hd15]
    exact List.take_left' (bytesBE_length 2 V)
  have hne : ∀ (n v : Nat), 0 < n → bytesBE n v ≠ [] := by
    intro n v hn hc
    have := bytesBE_length n v
    rw [hc] at this
    simp at this
    omega
  have hr1 : readBE payload 0 LENGTHS_blockchain_id_namespace_life = some L := by
    rw [readBE, LENGTHS_blockchain_id_namespace_life]
    simp only [hd0, ht4]
    rw [if_neg (hne 4 L (by norm_num)), beVal_bytesBE 4 L hL]
  have hr2 : readBE payload 4 LENGTHS_blockchain_id_namespace_cost = some C := by
    rw [readBE, LENGTHS_blockchain_id_namespace_cost]
    simp only [ht7]
    rw [if_neg (hne 7 C (by norm_num)), beVal_bytesBE 7 C hC]
  have hr3 : readBE payload 11 LENGTHS_blockchain_id_namespace_price_decay = some F := by
    rw [readBE, LENGTHS_blockchain_id_namespace_price_decay]
    simp only [ht11]
    rw [if_neg (hne 4 F (by norm_num)), beVal_bytesBE 4 F hF]
  have hr4 : readBE payload 15 LENGTHS_blockchain_id_namespace_version = some V := by
    rw [readBE, LENGTHS_blockchain_id_namespace_version]
    simp only [ht15]
    rw [if_neg (hne 2 V (by norm_num)), beVal_bytesBE 2 V hV]
  rw [parse]
  rw [hr1, hr2, hr3, hr4, hd17]
  rfl

/-- Round-trip of `build` then `parse` (via the framing collaborator's
hex-to-bytes conversion): all fields are recovered, with `price_decay`
recovered as the fixed-point truncation of the input rate. -/
theorem parse_build_roundtrip {σ β : Type} (hash_name : List Nat → σ → σ → β)
    (sender recip : σ) (addr : List Char) (ns : List Nat)
    (version lifetime satoshi_cost : Nat) (q : ℚ) (fix : Nat)
    (hns : is_b40 ns = true) (hplus : 43 ∉ ns) (hdot : ns.count 46 = 0)
    (hlen : ns.length ≤ LENGTHS_blockchain_id_namespace_id)
    (hfix : namespace_decay_to_fixpoint q = some fix)
    (hlife : lifetime ≤ 2 ^ 32 - 1) (hcost : satoshi_cost < 2 ^ 56)
    (hver : version < 2 ^ 16) :
    ∃ payload_hex,
      build ns (version : Int) addr (lifetime : Int) (satoshi_cost : Int) q =
          .ok payload_hex ∧
      parse hash_name (unhexlify payload_hex) sender recip =
        some
          { opcode := "NAMESPACE_REVEAL".toList
            lifetime := lifetime
            cost := satoshi_cost
            price_decay := namespace_decay_to_float fix
            namespace_id := ns
            namespace_id_hash := hash_name ns sender recip
            version := version } := by
  have hfixle : fix ≤ 2 ^ 32 - 1 := fixpoint_le q fix hfix
  refine ⟨_, build_ok ns version lifetime satoshi_cost addr q fix hns hplus hdot hlen hfix
    hlife hcost hver, ?_⟩
  have hbytes : ∀ b ∈ bytesBE 4 lifetime ++ bytesBE 7 satoshi_cost ++
      bytesBE 4 fix ++ bytesBE 2 version ++ ns, b < 256 := by
    intro b hb
    simp only [List.mem_append] at hb
    rcases hb with ((((h | h) | h) | h) | h)
    · exact bytesBE_lt 4 lifetime b h
    · exact bytesBE_lt 7 satoshi_cost b h
    · exact bytesBE_lt 4 fix b h
    · exact bytesBE_lt 2 version b h
    · exact is_b40_bytes_lt ns hns b h
  rw [unhexlify_hexlify _ hbytes]
  exact parse_payload hash_name sender recip lifetime satoshi_cost fix version ns
    (by norm_num; omega) (by norm_num; omega) (by norm_num; omega) (by norm_num; omega)

theorem fixpoint_tenth : namespace_decay_to_fixpoint (1/10 : ℚ) = some 1677721 := by
  have hfl : ⌊(1/10 : ℚ)⌋ = 0 := by
    rw [Int.floor_eq_zero_iff]
    norm_num
  have hc : ((1 <<< 24 : Nat) : ℚ) = 16777216 := by
    rw [show (1 <<< 24 : Nat) = 16777216 by decide]
    norm_num
  simp only [namespace_decay_to_fixpoint, if_neg (by norm_num : ¬ (1/10 : ℚ) < 0), hfl,
    if_neg (by norm_num : ¬ (0 : ℤ) > 255)]
  rw [hc]
  have hfl2 : ⌊((1/10 : ℚ) - ((0 : ℤ) : ℚ)) * 16777216⌋ = 1677721 := by
    rw [Int.floor_eq_iff]
    constructor <;> norm_num
  rw [hfl2]
  rfl

theorem decay_float_1677721 :
    namespace_decay_to_float 1677721 = (1677721 : ℚ) / 16777216 := by
  simp only [namespace_decay_to_float,
    show (1677721 : Nat) >>> 24 = 0 by decide,
    show (1677721 : Nat) &&& 0x00ffffff = 1677721 by decide,
    show (1 <<< 24 : Nat) = 16777216 by decide]
  norm_num

/-! ## Claim C1 -/

/-- C1 (amended): for every valid input tuple within domain bounds
(`namespace_id` of base-38 bytes without `+`/`.` and length in `[1, 19]`,
`version < 2^16`, `lifetime ≤ 2^32 - 1`, `satoshi_cost < 2^56`, decay rate
converting to a fixed-point value), parsing the payload produced by `build`
(with the 3-byte framing prefix stripped) returns a record whose `lifetime`,
`cost`, `version` and `namespace_id` equal the original inputs,
`namespace_id_hash` equals `hash_name namespace_id sender recipient`, and
`price_decay` equals the fixed-point truncation
`namespace_decay_to_float (namespace_decay_to_fixpoint rate)` of the
original rate (equal to the rate itself exactly when its fractional part is
a multiple of `2^-24`, but not in general). -/
theorem c1_build_parse_roundtrip {σ β : Type} (hash_name : List Nat → σ → σ → β)
    (sender recip : σ) (addr : List Char) (ns : List Nat)
    (version lifetime satoshi_cost : Nat) (q : ℚ) (fix : Nat)
    (hns : is_b40 ns = true) (hplus : 43 ∉ ns) (hdot : ns.count 46 = 0)
    (hlen1 : 1 ≤ ns.length) (hlen : ns.length ≤ LENGTHS_blockchain_id_namespace_id)
    (hfix : namespace_decay_to_fixpoint q = some fix)
    (hlife : lifetime ≤ 2 ^ 32 - 1) (hcost : satoshi_cost < 2 ^ 56)
    (hver : version < 2 ^ 16) :
    ∃ payload_hex,
      build ns (version : Int) addr (lifetime : Int) (satoshi_cost : Int) q =
          .ok payload_hex ∧
      parse hash_name (unhexlify payload_hex) sender recip =
        some
          { opcode := "NAMESPACE_REVEAL".toList
            lifetime := lifetime
            cost := satoshi_cost
            price_decay := namespace_decay_to_float fix
            namespace_id := ns
            namespace_id_hash := hash_name ns sender recip
            version := version } :=
  parse_build_roundtrip hash_name sender recip addr ns version lifetime satoshi_cost
    q fix hns hplus hdot hlen hfix hlife hcost hver

/-- Witness for C1: a concrete instance (`namespace_id = "a"`, decay rate 0). -/
theorem c1_build_parse_roundtrip_witness :
    is_b40 [97] = true ∧
    ∃ payload_hex,
      build [97] ((1 : Nat) : Int) [] ((1 : Nat) : Int) ((1 : Nat) : Int) 0 =
          .ok payload_hex ∧
      parse (fun nsb (_ : Nat) (_ : Nat) => nsb) (unhexlify payload_hex) 0 0 =
        some
          { opcode := "NAMESPACE_REVEAL".toList
            lifetime := 1
            cost := 1
            price_decay := namespace_decay_to_float 0
            namespace_id := [97]
            namespace_id_hash := [97]
            version := 1 } :=
  ⟨by decide,
    c1_build_parse_roundtrip (fun nsb (_ : Nat) (_ : Nat) => nsb) 0 0 [] [97] 1 1 1 0 0
      (by decide) (by decide) (by decide) (by decide) (by decide)
      fixpoint_zero (by norm_num) (by norm_num) (by norm_num)⟩

/-- Counterexample for C1 as stated: with decay rate `1/10` the build/parse
round trip yields `price_decay = 1677721/2^24 ≠ 1/10`. -/
theorem c1_counterexample :
    build [104, 105] (1 : Int) [] (1 : Int) (1 : Int) (1/10 : ℚ) =
      .ok (hexlify (bytesBE 4 1 ++ bytesBE 7 1 ++ bytesBE 4 1677721 ++
        bytesBE 2 1 ++ [104, 105])) ∧
    (parse (fun nsb (_ : Nat) (_ : Nat) => nsb)
        (unhexlify (hexlify (bytesBE 4 1 ++ bytesBE 7 1 ++ bytesBE 4 1677721 ++
          bytesBE 2 1 ++ [104, 105]))) 0 0).map
      NSRecord.price_decay ≠ some (1/10 : ℚ) := by
  constructor
  · exact build_ok [104, 105] 1 1 1 [] (1/10 : ℚ) 1677721 (by decide) (by decide)
      (by decide) (by decide) fixpoint_tenth (by norm_num) (by norm_num) (by norm_num)
  · have hbytes : ∀ b ∈ bytesBE 4 1 ++ bytesBE 7 1 ++ bytesBE 4 1677721 ++
        bytesBE 2 1 ++ [104, 105], b < 256 := by decide
    rw [unhexlify_hexlify _ hbytes]
    rw [parse_payload (fun nsb (_ : Nat) (_ : Nat) => nsb) 0 0 1 1 1677721 1 [104, 105]
      (by norm_num) (by norm_num) (by norm_num) (by norm_num)]
    intro hcontra
    rw [Option.map_some'] at hcontra
    have := Option.some.inj hcontra
    rw [decay_float_1677721] at this
    norm_num at this

/-! ## Claim C5 -/

/-- C5 (amended): `serialize_int v w` fails exactly when `v ≥ 2^(8w)` or
`v < -(2^(8w))` (not for every negative `v`); a non-negative in-range value
serializes to exactly `2w` hex characters; in particular
`serialize_int (2^56) 7` fails and `serialize_int (2^56 - 1) 7` succeeds. -/
theorem c5_serialize_int_overflow (v : Int) (w : Nat) (hw : 1 ≤ w) :
    (serialize_int v w = none ↔
      (v ≥ (2 : Int) ^ (w * 8) ∨ v < -((2 : Int) ^ (w * 8)))) ∧
    (0 ≤ v → v < (2 : Int) ^ (w * 8) →
      serialize_int v w = some (hexlify (bytesBE w v.toNat)) ∧
        (hexlify (bytesBE w v.toNat)).length = w * 2) ∧
    serialize_int ((2 : Int) ^ 56) 7 = none ∧
    serialize_int ((2 : Int) ^ 56 - 1) 7 ≠ none := by
  refine ⟨?_, ?_, ?_, ?_⟩
  case refine_4 =>
    rw [serialize_int]
    norm_num
    exact fun hc => Option.noConfusion hc
  · constructor
    · intro h
      by_contra hc
      rw [serialize_int, if_neg hc] at h
      exact Option.noConfusion h
    · intro h
      rw [serialize_int, if_pos h]
  · intro h0 h1
    refine ⟨serialize_int_of_nonneg v w hw h0 h1, ?_⟩
    rw [hexlify_length, bytesBE_length]
    omega
  · rw [serialize_int]
    norm_num

/-- Witness for C5: instance at `w = 7`, `v = 3`. -/
theorem c5_serialize_int_overflow_witness :
    (serialize_int 3 7 = none ↔
      ((3 : Int) ≥ (2 : Int) ^ (7 * 8) ∨ (3 : Int) < -((2 : Int) ^ (7 * 8)))) ∧
    ((0 : Int) ≤ 3 → (3 : Int) < (2 : Int) ^ (7 * 8) →
      serialize_int 3 7 = some (hexlify (bytesBE 7 (3 : Int).toNat)) ∧
        (hexlify (bytesBE 7 (3 : Int).toNat)).length = 7 * 2) ∧
    serialize_int ((2 : Int) ^ 56) 7 = none ∧
    serialize_int ((2 : Int) ^ 56 - 1) 7 ≠ none :=
  c5_serialize_int_overflow 3 7 (by norm_num)

/-- Counterexample for C5 as stated: `serialize_int (-1) 2` does not fail,
although `-1` is negative. -/
theorem c5_counterexample : serialize_int (-1) 2 ≠ none := by
  rw [serialize_int]
  norm_num
  exact fun hc => Option.noConfusion hc

/-! ## Claim C6 -/

/-- C6: for every `satoshi_cost` with `2^56 ≤ satoshi_cost ≤ 2^64 - 1`,
`build`'s cost validation accepts the value, but the 7-byte serialization of
the cost field raises the overflow error: `build` returns the serializer's
overflow error for width 7, not the cost-out-of-range error. -/
theorem c6_cost_passes_validation_fails_serialization (ns : List Nat)
    (version lifetime : Int) (addr : List Char) (q : ℚ) (fix : Nat)
    (satoshi_cost : Nat)
    (hns : is_b40 ns = true) (hplus : 43 ∉ ns) (hdot : ns.count 46 = 0)
    (hlen : ns.length ≤ LENGTHS_blockchain_id_namespace_id)
    (hfix : namespace_decay_to_fixpoint q = some fix)
    (hcost : 2 ^ 56 ≤ satoshi_cost ∧ satoshi_cost ≤ 2 ^ 64 - 1) :
    build ns version addr lifetime (satoshi_cost : Int) q =
      .error (.intOverflow 7) := by
  have hfixle : fix ≤ 2 ^ 32 - 1 := fixpoint_le q fix hfix
  have hc1 : ¬ (¬ is_b40 ns = true ∨ 43 ∈ ns ∨ ns.count 46 > 0) := by
    push_neg
    exact ⟨hns, hplus, by omega⟩
  have hc2 : ¬ (ns.length > LENGTHS_blockchain_id_namespace_id) := by omega
  have hccost : ¬ ((satoshi_cost : Int) < 0 ∨ (satoshi_cost : Int) > 2 ^ 64 - 1) := by
    push_neg
    refine ⟨by positivity, ?_⟩
    have : ((2 : Int) ^ 64 - 1) = ((2 ^ 64 - 1 : Nat) : Int) := by norm_num
    rw [this]
    exact_mod_cast hcost.2
  have hcfix : ¬ (((fix : Nat) : Int) < 0 ∨ ((fix : Nat) : Int) > 2 ^ 32 - 1) := by
    push_neg
    refine ⟨by positivity, ?_⟩
    have : ((2 : Int) ^ 32 - 1) = ((2 ^ 32 - 1 : Nat) : Int) := by norm_num
    rw [this]
    exact_mod_cast hfixle
  set lifetime' : Int :=
    if lifetime < 0 ∨ lifetime > 2 ^ 32 - 1 then NAMESPACE_LIFE_INFINITE else lifetime
    with hlife'
  have hlifeok : ∃ hex, serialize_int lifetime' 4 = some hex := by
    have hbounds : 0 ≤ lifetime' ∧ lifetime' < 2 ^ (4 * 8) := by
      rw [hlife']
      split
      · rw [NAMESPACE_LIFE_INFINITE]
        norm_num
      next hcond =>
        push_neg at hcond
        refine ⟨hcond.1, ?_⟩
        have := hcond.2
        norm_num at this ⊢
        omega
    exact ⟨_, serialize_int_of_nonneg lifetime' 4 (by norm_num) hbounds.1 hbounds.2⟩
  obtain ⟨life_hex, hlifeser⟩ := hlifeok
  have hcostser : serialize_int (satoshi_cost : Int) 7 = none := by
    rw [serialize_int, if_pos]
    left
    have : ((2 : Int) ^ 56) = ((2 ^ 56 : Nat) : Int) := by norm_num
    rw [ge_iff_le, show (7 : Nat) * 8 = 56 from rfl, this]
    exact_mod_cast hcost.1
  simp only [build, if_neg hc1, if_neg hc2, hfix, if_neg hccost, if_neg hcfix,
    ← hlife', hlifeser, hcostser]

/-- Witness for C6: concrete instance at `satoshi_cost = 2^56`. -/
theorem c6_witness :
    build [97] 1 [] 1 ((2 ^ 56 : Nat) : Int) 0 = .error (.intOverflow 7) :=
  c6_cost_passes_validation_fails_serialization [97] 1 1 [] 0 0 (2 ^ 56)
    (by decide) (by decide) (by decide) (by decide) fixpoint_zero
    ⟨le_refl _, by norm_num⟩

/-! ## Claim C7 -/

/-- C7 (code evaluated at the failing input): `build` accepts the empty
`namespace_id` — no `InvalidIdentifier` error is raised for length 0, the
length check only rejects lengths above the maximum, contradicting the
claim (and the code's own error message, which says the expected length is
between 1 and the maximum). -/
theorem c7_empty_namespace_id_accepted :
    build [] (1 : Int) [] (1 : Int) (1 : Int) 0 =
      .ok (hexlify (bytesBE 4 1 ++ bytesBE 7 1 ++ bytesBE 4 0 ++ bytesBE 2 1 ++ [])) :=
  build_ok [] 1 1 1 [] 0 0 (by decide) (by decide) (by decide) (by decide)
    fixpoint_zero (by norm_num) (by norm_num) (by norm_num)

/-! ## Claim C9 -/

/-- C9 (code evaluated at the failing input): a 16-byte payload — shorter
than the 17-byte fixed header — is parsed *successfully* (the version is
read from a single byte and the namespace id is empty); there is no
distinct truncation error. -/
theorem c9_short_payload_parses_successfully :
    parse (fun nsb (_ : Nat) (_ : Nat) => nsb) (List.replicate 16 0) 0 0 =
      some
        { opcode := "NAMESPACE_REVEAL".toList
          lifetime := 0
          cost := 0
          price_decay := namespace_decay_to_float 0
          namespace_id := []
          namespace_id_hash := []
          version := 0 } := by
  rfl

/-! ## Claim C10 -/

/-- C10: whenever `namespace_decay_to_fixpoint` returns a value, that value
is at most `2^32 - 1`; consequently `build` can never return the
decay-out-of-range error — that branch is unreachable. -/
theorem c10_decay_range_check_unreachable :
    (∀ (q : ℚ) (fp : Nat), namespace_decay_to_fixpoint q = some fp →
      fp ≤ 2 ^ 32 - 1) ∧
    (∀ (ns : List Nat) (version lifetime satoshi_cost : Int) (addr : List Char)
      (q : ℚ), build ns version addr lifetime satoshi_cost q ≠
        .error .decayOutOfRange) := by
  refine ⟨fixpoint_le, ?_⟩
  intro ns version lifetime satoshi_cost addr q h
  simp only [build] at h
  split at h
  · exact BuildErr.noConfusion (Except.error.inj h)
  split at h
  · exact BuildErr.noConfusion (Except.error.inj h)
  split at h
  · exact BuildErr.noConfusion (Except.error.inj h)
  next fix hfix =>
    split at h
    · exact BuildErr.noConfusion (Except.error.inj h)
    next =>
      split at h
      next hcond =>
        have hle : fix ≤ 2 ^ 32 - 1 := fixpoint_le q fix hfix
        have : ((fix : Nat) : Int) ≤ 2 ^ 32 - 1 := by
          have h32 : ((2 : Int) ^ 32 - 1) = ((2 ^ 32 - 1 : Nat) : Int) := by norm_num
          rw [h32]
          exact_mod_cast hle
        rcases hcond with hc | hc
        · have : (0 : Int) ≤ ((fix : Nat) : Int) := by positivity
          omega
        · omega
      next =>
        split at h
        · exact BuildErr.noConfusion (Except.error.inj h)
        split at h
        · exact BuildErr.noConfusion (Except.error.inj h)
        split at h
        · exact BuildErr.noConfusion (Except.error.inj h)
        split at h
        · exact BuildErr.noConfusion (Except.error.inj h)
        exact Except.noConfusion h

/-- Witness for C10: instance at decay rate 0 and a concrete build call. -/
theorem c10_witness :
    (0 : Nat) ≤ 2 ^ 32 - 1 ∧
    build [97] 1 [] 1 1 0 ≠ .error .decayOutOfRange :=
  ⟨c10_decay_range_check_unreachable.1 0 0 fixpoint_zero,
    c10_decay_range_check_unreachable.2 [97] 1 1 1 [] 0⟩

end NamespaceReveal

namespace UserDb

/-! ## Embedding of `blockstack_client/user.py` (data registry)

Python text strings are modelled as `List Char`.  `str.split(sep)` and
`sep.join` are modelled by `splitOn` / `joinOn`.  The external content-hash
validator `scripts.is_valid_hash` (out of scope per the spec, §6) is passed
in as a function argument. -/

/-- Python `str.split(sep)` for a one-character separator: always returns at
least one (possibly empty) segment. -/
def splitOn (sep : Char) : List Char → List (List Char)
  | [] => [[]]
  | c :: rest =>
    match splitOn sep rest with
    | s :: ss => if c = sep then [] :: s :: ss else (c :: s) :: ss
    | [] => [[]]

/-- Python `sep.join(parts)`. -/
def joinOn (sep : Char) : List (List Char) → List Char
  | [] => []
  | [s] => s
  | s :: ss => s ++ sep :: joinOn sep ss

theorem splitOn_ne_nil (sep : Char) (l : List Char) : splitOn sep l ≠ [] := by
  cases l with
  | nil => simp [splitOn]
  | cons c rest =>
    rw [splitOn]
    cases h : splitOn sep rest with
    | nil => simp
    | cons s ss =>
      by_cases hc : c = sep <;> simp [hc]

theorem splitOn_of_not_mem (sep : Char) (l : List Char) (h : sep ∉ l) :
    splitOn sep l = [l] := by
  induction l with
  | nil => rfl
  | cons c rest ih =>
    have hc : c ≠ sep := fun hcc => h (by simp [hcc])
    have hrest : sep ∉ rest := fun hm => h (by simp [hm])
    rw [splitOn, ih hrest]
    simp [hc]

theorem splitOn_append_sep (sep : Char) (u v : List Char) (hv : sep ∉ v) :
    splitOn sep (u ++ sep :: v) = splitOn sep u ++ [v] := by
  induction u with
  | nil =>
    rw [List.nil_append]
    simp [splitOn, splitOn_of_not_mem sep v hv]
  | cons c u' ih =>
    obtain ⟨s, ss, hss⟩ : ∃ s ss, splitOn sep u' = s :: ss := by
      cases h : splitOn sep u' with
      | nil => exact absurd h (splitOn_ne_nil sep u')
      | cons s ss => exact ⟨s, ss, rfl⟩
    rw [List.cons_append]
    simp only [splitOn, ih, hss]
    by_cases hc : c = sep <;> simp [hc]

theorem joinOn_splitOn (sep : Char) (l : List Char) :
    joinOn sep (splitOn sep l) = l := by
  induction l with
  | nil => rfl
  | cons c rest ih =>
    obtain ⟨s, ss, hss⟩ : ∃ s ss, splitOn sep rest = s :: ss := by
      cases h : splitOn sep rest with
      | nil => exact absurd h (splitOn_ne_nil sep rest)
      | cons s ss => exact ⟨s, ss, rfl⟩
    simp only [splitOn, hss]
    rw [hss] at ih
    by_cases hc : c = sep
    · subst hc
      simp only [if_pos rfl]
      cases ss with
      | nil => simpa [joinOn] using ih
      | cons s2 ss2 => simpa [joinOn] using ih
    · rw [if_neg hc]
      cases ss with
      | nil =>
        simp only [joinOn] at ih ⊢
        rw [← ih]
      | cons s2 ss2 =>
        simp only [joinOn] at ih ⊢
        rw [List.cons_append, ih]

/-! ## Immutable data records (`txt` records of a zonefile) -/

structure TxtRec where
  name : List Char
  txt : List Char
deriving DecidableEq

/-- `get_immutable_hash_from_txt`: the hash is the suffix after the last
`#`; `None` if there is no `#` or the suffix fails the validator. -/
def get_immutable_hash_from_txt (is_valid_hash : List Char → Bool)
    (txtrec : List Char) : Option (List Char) :=
  if '#' ∉ txtrec then none
  else
    let h := ((splitOn '#' txtrec).getLast?).getD []
    if ¬ is_valid_hash h then none
    else some h

/-- `get_immutable_url_from_txt`: everything before the last `#`;
`None` if there is no `#` or the prefix is empty (`return url or None`). -/
def get_immutable_url_from_txt (txtrec : List Char) : Option (List Char) :=
  if '#' ∉ txtrec then none
  else
    let url := joinOn '#' ((splitOn '#' txtrec).dropLast)
    if url = [] then none else some url

/-- Result type of `get_immutable_data_hash`: Python returns `None`, a
single string, or a list of strings. -/
inductive HashLookup where
  | none
  | one (h : List Char)
  | many (hs : List (List Char))
deriving DecidableEq

/-- The accumulation step of `get_immutable_data_hash`. -/
def addHash (acc : HashLookup) (h : List Char) : HashLookup :=
  match acc with
  | .none => .one h
  | .one h0 => .many [h0, h]
  | .many hs => .many (hs ++ [h])

/-- `get_immutable_data_hash`: scan the txt records for matching names and
collect their (valid) hashes; records whose hash is missing or invalid are
skipped (the `assert` failure is caught and the loop continues). -/
def get_immutable_data_hash (is_valid_hash : List Char → Bool)
    (txts : List TxtRec) (data_id : List Char) : HashLookup :=
  txts.foldl
    (fun acc r =>
      if r.name ≠ data_id then acc
      else
        match get_immutable_hash_from_txt is_valid_hash r.txt with
        | Option.none => acc
        | Option.some h => addHash acc h)
    .none

/-- `put_immutable_data_zonefile`: `Option.none` models the `assert`
failure on an invalid hash.  If the id already resolves to a hash (or a
list of hashes), return whether it equals the new hash without touching the
records (a Python list never equals a string); otherwise append a new txt
record `[url] ++ "#" ++ hash`. -/
def put_immutable_data_zonefile (is_valid_hash : List Char → Bool)
    (txts : List TxtRec) (data_id : List Char) (data_hash : List Char)
    (data_url : Option (List Char)) : Option (Bool × List TxtRec) :=
  if ¬ is_valid_hash data_hash then none
  else
    match get_immutable_data_hash is_valid_hash txts data_id with
    | .none =>
      let txtrec := (match data_url with
        | Option.none => []
        | Option.some u => u) ++ '#' :: data_hash
      some (true, txts ++ [⟨data_id, txtrec⟩])
    | .one k => some (k == data_hash, txts)
    | .many _ => some (false, txts)

/-! ## Claim C8 -/

/-- C8 (amended): for a txt record of the form `url ++ "#" ++ hash` (with
`#` not occurring in the hash, but allowed in the url), the hash extractor
returns the final segment exactly when it passes the validator, and the URL
extractor returns the preceding part when it is nonempty and `None` when it
is empty. -/
theorem c8_txt_record_split (is_valid_hash : List Char → Bool)
    (url h : List Char) (hh : '#' ∉ h) :
    get_immutable_hash_from_txt is_valid_hash (url ++ '#' :: h) =
      (if is_valid_hash h then some h else Option.none) ∧
    get_immutable_url_from_txt (url ++ '#' :: h) =
      (if url = [] then Option.none else some url) := by
  have hmem : '#' ∈ url ++ '#' :: h := by simp
  have hsplit : splitOn '#' (url ++ '#' :: h) = splitOn '#' url ++ [h] :=
    splitOn_append_sep '#' url h hh
  constructor
  · rw [get_immutable_hash_from_txt, if_neg (by simpa using hmem)]
    rw [hsplit]
    rw [List.getLast?_concat]
    simp only [Option.getD_some]
    by_cases hv : is_valid_hash h <;> simp [hv]
  · rw [get_immutable_url_from_txt, if_neg (by simpa using hmem)]
    rw [hsplit, List.dropLast_concat, joinOn_splitOn]

/-- Witness for C8: concrete record `"a#b#c" = url "a#b" ++ "#" ++ hash "c"`
with a length-1 validator. -/
theorem c8_txt_record_split_witness :
    get_immutable_hash_from_txt (fun s => s.length == 1)
        (['a', '#', 'b'] ++ '#' :: ['c']) =
      (if (fun s : List Char => s.length == 1) ['c'] then some ['c']
        else Option.none) ∧
    get_immutable_url_from_txt (['a', '#', 'b'] ++ '#' :: ['c']) =
      (if (['a', '#', 'b'] : List Char) = [] then Option.none
        else some ['a', '#', 'b']) :=
  c8_txt_record_split (fun s => s.length == 1) ['a', '#', 'b'] ['c'] (by decide)

/-- Counterexample for C8 as stated: the record `"#a"` contains `#` and its
part before the last `#` is empty, but the URL extractor returns `None`
rather than that (empty) preceding part. -/
theorem c8_counterexample :
    '#' ∈ ['#', 'a'] ∧
    joinOn '#' ((splitOn '#' ['#', 'a']).dropLast) = [] ∧
    get_immutable_url_from_txt ['#', 'a'] ≠ some [] := by
  refine ⟨by decide, by decide, ?_⟩
  decide

/-! ## Claim C4 -/

/-- C4: if `data_id` already resolves to the single hash `h`, then putting
`h'` succeeds exactly when `h' = h`, and in both cases the txt record set
is returned unchanged. -/
theorem c4_put_immutable_duplicate (is_valid_hash : List Char → Bool)
    (txts : List TxtRec) (data_id h h' : List Char)
    (hvalid : is_valid_hash h' = true)
    (hone : get_immutable_data_hash is_valid_hash txts data_id = .one h)
    (data_url : Option (List Char)) :
    (h' = h →
      put_immutable_data_zonefile is_valid_hash txts data_id h' data_url =
        some (true, txts)) ∧
    (h' ≠ h →
      put_immutable_data_zonefile is_valid_hash txts data_id h' data_url =
        some (false, txts)) := by
  rw [put_immutable_data_zonefile.eq_def, if_neg (by simp [hvalid]), hone]
  constructor
  · intro heq
    subst heq
    simp
  · intro hne
    have hbeq : (h == h') = false := by
      rw [beq_eq_false_iff_ne]
      exact fun hc => hne hc.symm
    simp [hbeq]

/-- Witness for C4: a zonefile holding `a ↦ #xy` and a length-2 validator;
re-putting hash `xy` is the idempotent success case. -/
theorem c4_put_immutable_duplicate_witness :
    get_immutable_data_hash (fun s => s.length == 2)
        [⟨['a'], ['#', 'x', 'y']⟩] ['a'] = .one ['x', 'y'] ∧
    (['x', 'y'] = ['x', 'y'] →
      put_immutable_data_zonefile (fun s => s.length == 2)
          [⟨['a'], ['#', 'x', 'y']⟩] ['a'] ['x', 'y'] Option.none =
        some (true, [⟨['a'], ['#', 'x', 'y']⟩])) ∧
    ((['x', 'y'] : List Char) ≠ ['x', 'y'] →
      put_immutable_data_zonefile (fun s => s.length == 2)
          [⟨['a'], ['#', 'x', 'y']⟩] ['a'] ['x', 'y'] Option.none =
        some (false, [⟨['a'], ['#', 'x', 'y']⟩])) := by
  refine ⟨by decide, ?_⟩
  exact c4_put_immutable_duplicate (fun s => s.length == 2)
    [⟨['a'], ['#', 'x', 'y']⟩] ['a'] ['x', 'y'] ['x', 'y'] (by decide) (by decide)
    Option.none

/-! ## Base64 (Python `base64.b64encode` / `b64decode`, standard alphabet) -/

def b64Alphabet : List Char :=
  "ABCDEFGHIJKLMNOPQRSTUVWXYZabcdefghijklmnopqrstuvwxyz0123456789+/".toList

def b64Char (n : Nat) : Char := b64Alphabet.getD n 'A'

def isB64Ch (c : Char) : Bool := b64Alphabet.contains c

def b64CharDec (c : Char) : Option Nat := b64Alphabet.indexOf? c

/-- RFC 4648 base64 of a byte string, with `=` padding. -/
def b64encode : List Nat → List Char
  | a :: b :: c :: rest =>
    b64Char (a >>> 2) :: b64Char (((a &&& 3) <<< 4) ||| (b >>> 4)) ::
      b64Char (((b &&& 15) <<< 2) ||| (c >>> 6)) :: b64Char (c &&& 63) ::
      b64encode rest
  | [a, b] =>
    [b64Char (a >>> 2), b64Char (((a &&& 3) <<< 4) ||| (b >>> 4)),
      b64Char ((b &&& 15) <<< 2), '=']
  | [a] => [b64Char (a >>> 2), b64Char ((a &&& 3) <<< 4), '=', '=']
  | [] => []

/-- Base64 decoding of a canonically padded string; `none` models the
`binascii.Error` Python raises on malformed input. -/
def b64decode : List Char → Option (List Nat)
  | [] => some []
  | c1 :: c2 :: c3 :: c4 :: rest =>
    match b64CharDec c1, b64CharDec c2 with
    | some s1, some s2 =>
      if c3 = '=' then
        if c4 = '=' ∧ rest = [] then some [(s1 <<< 2) ||| (s2 >>> 4)] else none
      else
        match b64CharDec c3 with
        | some s3 =>
          if c4 = '=' then
            if rest = [] then
              some [(s1 <<< 2) ||| (s2 >>> 4), ((s2 &&& 15) <<< 4) ||| (s3 >>> 2)]
            else none
          else
            match b64CharDec c4 with
            | some s4 =>
              (b64decode rest).map
                (fun tl =>
                  ((s1 <<< 2) ||| (s2 >>> 4)) :: (((s2 &&& 15) <<< 4) ||| (s3 >>> 2)) ::
                    (((s3 &&& 3) <<< 6) ||| s4) :: tl)
            | none => none
        | none => none
    | _, _ => none
  | _ => none

theorem b64CharDec_b64Char : ∀ n, n < 64 → b64CharDec (b64Char n) = some n := by
  decide

theorem b64Char_ne_eq : ∀ n, n < 64 → b64Char n ≠ '=' := by
  decide

theorem b64Char_ne_colon (n : Nat) : b64Char n ≠ ':' := by
  by_cases h : n < 64
  · revert h
    revert n
    decide
  · rw [b64Char, List.getD_eq_default]
    · decide
    · rw [show b64Alphabet.length = 64 by decide]
      omega

theorem b64Char_isB64 : ∀ n, n < 64 → isB64Ch (b64Char n) = true := by
  decide

/-- Arithmetic helper: `x <<< i ||| y = x * 2 ^ i + y` when `y < 2 ^ i`. -/
theorem shiftLeft_or_eq_add (x y i : Nat) (hy : y < 2 ^ i) :
    (x <<< i) ||| y = x * 2 ^ i + y := by
  rw [Nat.shiftLeft_eq, Nat.mul_comm, ← Nat.mul_add_lt_is_or hy, Nat.mul_comm]

theorem b64_sextet_lt (a b : Nat) (ha : a < 256) (hb : b < 256) :
    a >>> 2 < 64 ∧ ((a &&& 3) <<< 4) ||| (b >>> 4) < 64 ∧
      ((a &&& 15) <<< 2) ||| (b >>> 6) < 64 ∧ a &&& 63 < 64 := by
  have h3 : a &&& 3 = a % 4 := by
    have := Nat.and_pow_two_sub_one_eq_mod a 2
    norm_num at this
    exact this
  have h15 : a &&& 15 = a % 16 := by
    have := Nat.and_pow_two_sub_one_eq_mod a 4
    norm_num at this
    exact this
  have h63 : a &&& 63 = a % 64 := by
    have := Nat.and_pow_two_sub_one_eq_mod a 6
    norm_num at this
    exact this
  have hsr2 : a >>> 2 = a / 4 := by rw [Nat.shiftRight_eq_div_pow]
  have hsr4 : b >>> 4 = b / 16 := by rw [Nat.shiftRight_eq_div_pow]
  have hsr6 : b >>> 6 = b / 64 := by rw [Nat.shiftRight_eq_div_pow]
  refine ⟨by omega, ?_, ?_, by omega⟩
  · rw [h3, hsr4, shiftLeft_or_eq_add _ _ _ (by omega)]
    omega
  · rw [h15, hsr6, shiftLeft_or_eq_add _ _ _ (by omega)]
    omega

theorem and3_eq (x : Nat) : x &&& 3 = x % 4 := by
  have := Nat.and_pow_two_sub_one_eq_mod x 2
  norm_num at this
  exact this

theorem and15_eq (x : Nat) : x &&& 15 = x % 16 := by
  have := Nat.and_pow_two_sub_one_eq_mod x 4
  norm_num at this
  exact this

theorem and63_eq (x : Nat) : x &&& 63 = x % 64 := by
  have := Nat.and_pow_two_sub_one_eq_mod x 6
  norm_num at this
  exact this

theorem shr2_eq (x : Nat) : x >>> 2 = x / 4 := by
  rw [Nat.shiftRight_eq_div_pow]

theorem shr4_eq (x : Nat) : x >>> 4 = x / 16 := by
  rw [Nat.shiftRight_eq_div_pow]

theorem shr6_eq (x : Nat) : x >>> 6 = x / 64 := by
  rw [Nat.shiftRight_eq_div_pow]

theorem shl2_or_eq (x y : Nat) (hy : y < 4) : (x <<< 2) ||| y = x * 4 + y := by
  have := shiftLeft_or_eq_add x y 2 (by omega)
  norm_num at this
  exact this

theorem shl4_or_eq (x y : Nat) (hy : y < 16) : (x <<< 4) ||| y = x * 16 + y := by
  have := shiftLeft_or_eq_add x y 4 (by omega)
  norm_num at this
  exact this

theorem shl6_or_eq (x y : Nat) (hy : y < 64) : (x <<< 6) ||| y = x * 64 + y := by
  have := shiftLeft_or_eq_add x y 6 (by omega)
  norm_num at this
  exact this

theorem shl4_eq (x : Nat) : x <<< 4 = x * 16 := by
  rw [Nat.shiftLeft_eq]

theorem shl2_eq (x : Nat) : x <<< 2 = x * 4 := by
  rw [Nat.shiftLeft_eq]

theorem b64decode_b64encode :
    ∀ (l : List Nat), (∀ b ∈ l, b < 256) → b64decode (b64encode l) = some l
  | [], _ => rfl
  | [a], h => by
    have ha : a < 256 := h a (by simp)
    have h1 : a >>> 2 < 64 := by rw [shr2_eq]; omega
    have h2 : (a &&& 3) <<< 4 < 64 := by rw [and3_eq, shl4_eq]; omega
    have hbyte : ((a >>> 2) <<< 2) ||| (((a &&& 3) <<< 4) >>> 4) = a := by
      rw [and3_eq, shl4_eq, shr4_eq, shr2_eq, shl2_or_eq _ _ (by omega)]
      omega
    simp only [b64encode, b64decode, b64CharDec_b64Char _ h1, b64CharDec_b64Char _ h2,
      hbyte, if_true, eq_self_iff_true, and_self, if_pos]
  | [a, b], h => by
    have ha : a < 256 := h a (by simp)
    have hb : b < 256 := h b (by simp)
    have h1 : a >>> 2 < 64 := by rw [shr2_eq]; omega
    have esplit : ((a &&& 3) <<< 4) ||| (b >>> 4) = (a % 4) * 16 + b / 16 := by
      rw [and3_eq, shr4_eq, shl4_or_eq _ _ (by omega)]
    have h2 : ((a &&& 3) <<< 4) ||| (b >>> 4) < 64 := by rw [esplit]; omega
    have h3 : (b &&& 15) <<< 2 < 64 := by rw [and15_eq, shl2_eq]; omega
    have hbyte1 : ((a >>> 2) <<< 2) ||| ((((a &&& 3) <<< 4) ||| (b >>> 4)) >>> 4) = a := by
      rw [esplit, shr2_eq, shr4_eq, shl2_or_eq _ _ (by omega)]
      omega
    have hbyte2 : (((((a &&& 3) <<< 4) ||| (b >>> 4)) &&& 15) <<< 4) |||
        (((b &&& 15) <<< 2) >>> 2) = b := by
      rw [esplit, and15_eq, and15_eq, shl2_eq, shr2_eq, shl4_or_eq _ _ (by omega)]
      omega
    have hne3 : (b64Char ((b &&& 15) <<< 2) = '=') = False :=
      eq_false (b64Char_ne_eq _ h3)
    simp only [b64encode, b64decode, b64CharDec_b64Char _ h1, b64CharDec_b64Char _ h2,
      b64CharDec_b64Char _ h3, hne3, if_false, if_true, eq_self_iff_true, and_self,
      if_pos, hbyte1, hbyte2]
  | a :: b :: c :: rest, h => by
    have ha : a < 256 := h a (by simp)
    have hb : b < 256 := h b (by simp)
    have hc : c < 256 := h c (by simp)
    have ihrest := b64decode_b64encode rest (fun x hx => h x (by simp [hx]))
    have h1 : a >>> 2 < 64 := by rw [shr2_eq]; omega
    have esplit2 : ((a &&& 3) <<< 4) ||| (b >>> 4) = (a % 4) * 16 + b / 16 := by
      rw [and3_eq, shr4_eq, shl4_or_eq _ _ (by omega)]
    have esplit3 : ((b &&& 15) <<< 2) ||| (c >>> 6) = (b % 16) * 4 + c / 64 := by
      rw [and15_eq, shr6_eq, shl2_or_eq _ _ (by omega)]
    have h2 : ((a &&& 3) <<< 4) ||| (b >>> 4) < 64 := by rw [esplit2]; omega
    have h3 : ((b &&& 15) <<< 2) ||| (c >>> 6) < 64 := by rw [esplit3]; omega
    have h4 : c &&& 63 < 64 := by rw [and63_eq]; omega
    have hbyte1 : ((a >>> 2) <<< 2) ||| ((((a &&& 3) <<< 4) ||| (b >>> 4)) >>> 4) = a := by
      rw [esplit2, shr2_eq, shr4_eq, shl2_or_eq _ _ (by omega)]
      omega
    have hbyte2 : (((((a &&& 3) <<< 4) ||| (b >>> 4)) &&& 15) <<< 4) |||
        ((((b &&& 15) <<< 2) ||| (c >>> 6)) >>> 2) = b := by
      rw [esplit2, esplit3, and15_eq, shr2_eq, shl4_or_eq _ _ (by omega)]
      omega
    have hbyte3 : (((((b &&& 15) <<< 2) ||| (c >>> 6)) &&& 3) <<< 6) ||| (c &&& 63) = c := by
      rw [esplit3, and3_eq, and63_eq, shl6_or_eq _ _ (by omega)]
      omega
    have hne3 : (b64Char (((b &&& 15) <<< 2) ||| (c >>> 6)) = '=') = False :=
      eq_false (b64Char_ne_eq _ h3)
    have hne4 : (b64Char (c &&& 63) = '=') = False :=
      eq_false (b64Char_ne_eq _ h4)
    have henc : b64encode (a :: b :: c :: rest) =
        b64Char (a >>> 2) :: b64Char (((a &&& 3) <<< 4) ||| (b >>> 4)) ::
          b64Char (((b &&& 15) <<< 2) ||| (c >>> 6)) :: b64Char (c &&& 63) ::
          b64encode rest := rfl
    rw [henc, b64decode]
    simp only [b64CharDec_b64Char _ h1, b64CharDec_b64Char _ h2,
      b64CharDec_b64Char _ h3, b64CharDec_b64Char _ h4, hne3, hne4, if_false,
      ihrest, Option.map_some', hbyte1, hbyte2, hbyte3]

/-! ## Decimal formatting/parsing (Python `'{}'.format(n)` and `int(s)`) -/

def decDigitChar (d : Nat) : Char := Char.ofNat (48 + d)

/-- Fuel-based decimal digits; `natDecAux (v+1) v` is Python `str(v)`. -/
def natDecAux : Nat → Nat → List Char
  | 0, _ => []
  | fuel + 1, v =>
    if v < 10 then [decDigitChar v]
    else natDecAux fuel (v / 10) ++ [decDigitChar (v % 10)]

def natDec (v : Nat) : List Char := natDecAux (v + 1) v

def decToNat (l : List Char) : Nat :=
  l.foldl (fun acc c => acc * 10 + (c.toNat - 48)) 0

def isDigitChar (c : Char) : Bool := decide (48 ≤ c.toNat) && decide (c.toNat ≤ 57)

theorem decDigitChar_toNat : ∀ d, d < 10 → (decDigitChar d).toNat = 48 + d := by
  decide

theorem natDecAux_ne_nil (fuel v : Nat) (h : 0 < fuel) : natDecAux fuel v ≠ [] := by
  cases fuel with
  | zero => omega
  | succ fuel =>
    rw [natDecAux]
    by_cases hv : v < 10 <;> simp [hv]

theorem natDecAux_digits (fuel : Nat) :
    ∀ (v : Nat), ∀ c ∈ natDecAux fuel v, isDigitChar c = true := by
  induction fuel with
  | zero => simp [natDecAux]
  | succ fuel ih =>
    intro v c hc
    rw [natDecAux] at hc
    by_cases hv : v < 10
    · rw [if_pos hv] at hc
      simp only [List.mem_singleton] at hc
      subst hc
      rw [isDigitChar, decDigitChar_toNat v hv]
      simp
      omega
    · rw [if_neg hv] at hc
      simp only [List.mem_append, List.mem_singleton] at hc
      rcases hc with hc | hc
      · exact ih (v / 10) c hc
      · subst hc
        rw [isDigitChar, decDigitChar_toNat (v % 10) (by omega)]
        simp
        omega

theorem decToNat_natDecAux (fuel : Nat) :
    ∀ (v acc : Nat), v < fuel →
      List.foldl (fun acc c => acc * 10 + (c.toNat - 48)) acc (natDecAux fuel v) =
        acc * 10 ^ (natDecAux fuel v).length + v := by
  induction fuel with
  | zero => omega
  | succ fuel ih =>
    intro v acc hv
    rw [natDecAux]
    by_cases h10 : v < 10
    · rw [if_pos h10]
      simp only [List.foldl_cons, List.foldl_nil, List.length_cons, List.length_nil,
        decDigitChar_toNat v h10, pow_one, zero_add]
      omega
    · rw [if_neg h10]
      have hdiv : v / 10 < fuel := by omega
      rw [List.foldl_append, ih (v / 10) acc hdiv]
      simp [decDigitChar_toNat (v % 10) (by omega)]
      rw [pow_succ]
      have : v / 10 * 10 + v % 10 = v := by omega
      ring_nf
      omega

theorem decToNat_natDec (v : Nat) : decToNat (natDec v) = v := by
  rw [decToNat, natDec, decToNat_natDecAux (v + 1) v 0 (by omega)]
  simp

theorem natDec_ne_nil (v : Nat) : natDec v ≠ [] :=
  natDecAux_ne_nil (v + 1) v (by omega)

theorem natDec_digits (v : Nat) : ∀ c ∈ natDec v, isDigitChar c = true :=
  natDecAux_digits (v + 1) v

theorem colon_not_mem_natDec (v : Nat) : ':' ∉ natDec v := by
  intro hmem
  have := natDec_digits v ':' hmem
  rw [isDigitChar] at this
  simp at this

/-! ## Base64 charset facts -/

/-- The shape accepted by the base64 field of the key pattern: full groups
of four, standard padding only in the last group. -/
def isB64Shape : List Char → Bool
  | [] => true
  | c1 :: c2 :: c3 :: c4 :: rest =>
    isB64Ch c1 && isB64Ch c2 &&
      (if c3 = '=' then c4 = '=' && rest.isEmpty
       else isB64Ch c3 &&
         (if c4 = '=' then rest.isEmpty else isB64Ch c4 && isB64Shape rest))
  | _ => false

theorem sextet1_lt (a : Nat) (ha : a < 256) : a >>> 2 < 64 := by
  rw [shr2_eq]
  omega

theorem sextet2_lt (a b : Nat) (hb : b < 256) :
    ((a &&& 3) <<< 4) ||| (b >>> 4) < 64 := by
  rw [and3_eq, shr4_eq, shl4_or_eq _ _ (by omega)]
  omega

theorem sextet2p_lt (a : Nat) : (a &&& 3) <<< 4 < 64 := by
  rw [and3_eq, shl4_eq]
  omega

theorem sextet3_lt (b c : Nat) (hc : c < 256) :
    ((b &&& 15) <<< 2) ||| (c >>> 6) < 64 := by
  rw [and15_eq, shr6_eq, shl2_or_eq _ _ (by omega)]
  omega

theorem sextet3p_lt (b : Nat) : (b &&& 15) <<< 2 < 64 := by
  rw [and15_eq, shl2_eq]
  omega

theorem sextet4_lt (c : Nat) : c &&& 63 < 64 := by
  rw [and63_eq]
  omega

theorem colon_not_mem_b64encode : ∀ (l : List Nat), ':' ∉ b64encode l
  | [] => by simp [b64encode]
  | [a] => by
    intro hmem
    simp only [b64encode, List.mem_cons, List.not_mem_nil, or_false] at hmem
    rcases hmem with h | h | h | h
    · exact b64Char_ne_colon _ h.symm
    · exact b64Char_ne_colon _ h.symm
    · exact absurd h (by decide)
    · exact absurd h (by decide)
  | [a, b] => by
    intro hmem
    simp only [b64encode, List.mem_cons, List.not_mem_nil, or_false] at hmem
    rcases hmem with h | h | h | h
    · exact b64Char_ne_colon _ h.symm
    · exact b64Char_ne_colon _ h.symm
    · exact b64Char_ne_colon _ h.symm
    · exact absurd h (by decide)
  | a :: b :: c :: rest => by
    intro hmem
    have htail := colon_not_mem_b64encode rest
    simp only [show b64encode (a :: b :: c :: rest) =
        b64Char (a >>> 2) :: b64Char (((a &&& 3) <<< 4) ||| (b >>> 4)) ::
          b64Char (((b &&& 15) <<< 2) ||| (c >>> 6)) :: b64Char (c &&& 63) ::
          b64encode rest from rfl,
      List.mem_cons] at hmem
    rcases hmem with h | h | h | h | h
    · exact b64Char_ne_colon _ h.symm
    · exact b64Char_ne_colon _ h.symm
    · exact b64Char_ne_colon _ h.symm
    · exact b64Char_ne_colon _ h.symm
    · exact htail h

theorem b64encode_shape :
    ∀ (l : List Nat), (∀ b ∈ l, b < 256) → isB64Shape (b64encode l) = true
  | [], _ => rfl
  | [a], h => by
    have ha : a < 256 := h a (by simp)
    have h1 := sextet1_lt a ha
    have h2 := sextet2p_lt a
    simp [b64encode, isB64Shape, b64Char_isB64 _ h1, b64Char_isB64 _ h2]
  | [a, b], h => by
    have ha : a < 256 := h a (by simp)
    have hb : b < 256 := h b (by simp)
    have h1 := sextet1_lt a ha
    have h2 := sextet2_lt a b hb
    have h3 := sextet3p_lt b
    simp [b64encode, isB64Shape, b64Char_isB64 _ h1, b64Char_isB64 _ h2,
      b64Char_isB64 _ h3, b64Char_ne_eq _ h3]
  | a :: b :: c :: rest, h => by
    have ha : a < 256 := h a (by simp)
    have hb : b < 256 := h b (by simp)
    have hc : c < 256 := h c (by simp)
    have h1 := sextet1_lt a ha
    have h2 := sextet2_lt a b hb
    have h3 := sextet3_lt b c hc
    have h4 := sextet4_lt c
    have ih := b64encode_shape rest (fun x hx => h x (by simp [hx]))
    rw [show b64encode (a :: b :: c :: rest) =
        b64Char (a >>> 2) :: b64Char (((a &&& 3) <<< 4) ||| (b >>> 4)) ::
          b64Char (((b &&& 15) <<< 2) ||| (c >>> 6)) :: b64Char (c &&& 63) ::
          b64encode rest from rfl, isB64Shape]
    simp [b64Char_isB64 _ h1, b64Char_isB64 _ h2, b64Char_isB64 _ h3,
      b64Char_isB64 _ h4, b64Char_ne_eq _ h3, b64Char_ne_eq _ h4, ih]

/-! ## Mutable data keys -/

theorem splitOn_cons_of_not_mem (sep : Char) (u w : List Char) (hu : sep ∉ u) :
    splitOn sep (u ++ sep :: w) = u :: splitOn sep w := by
  induction u with
  | nil =>
    obtain ⟨s, ss, hss⟩ : ∃ s ss, splitOn sep w = s :: ss := by
      cases h : splitOn sep w with
      | nil => exact absurd h (splitOn_ne_nil sep w)
      | cons s ss => exact ⟨s, ss, rfl⟩
    rw [List.nil_append]
    simp only [splitOn, hss]
    simp
  | cons c u' ih =>
    have hc : c ≠ sep := fun hcc => hu (by simp [hcc])
    have hu' : sep ∉ u' := fun hm => hu (by simp [hm])
    rw [List.cons_append]
    simp only [splitOn, ih hu']
    simp [hc]

/-- `pack_mutable_data_md`:
`'mutable:{}:{}'.format(base64.b64encode(data_id), version)`. -/
def pack_mutable_data_md (data_id : List Nat) (version : Nat) : List Char :=
  "mutable:".toList ++ b64encode data_id ++ ':' :: natDec version

/-- Modelled from the spec: `is_mutable_data_md` matches the key against the
pattern `mutable:<base64>:<decimal>` (the regex `OP_MUTABLE_DATA_MD_PATTERN`
lives in `blockstack_client/schemas.py`, which is not among the provided
sources; base64 is required to be full four-character groups with standard
trailing padding, so that a matching key always base64-decodes). -/
def is_mutable_data_md (r : List Char) : Bool :=
  match splitOn ':' r with
  | [m, mid, ver] =>
    (m == "mutable".toList) && isB64Shape mid && !ver.isEmpty && ver.all isDigitChar
  | _ => false

/-- `unpack_mutable_data_md`: `none` models the `AssertionError` when the
key does not match the pattern, or the `binascii.Error` if the base64
segment fails to decode (unreachable for keys matching the pattern). -/
def unpack_mutable_data_md (r : List Char) : Option (List Nat × Nat) :=
  if ¬ is_mutable_data_md r then none
  else
    match b64decode ((splitOn ':' r).getD 1 []) with
    | none => none
    | some data_id => some (data_id, decToNat ((splitOn ':' r).getD 2 []))

theorem splitOn_pack (data_id : List Nat) (version : Nat) :
    splitOn ':' (pack_mutable_data_md data_id version) =
      ["mutable".toList, b64encode data_id, natDec version] := by
  have hform : pack_mutable_data_md data_id version =
      "mutable".toList ++ ':' :: (b64encode data_id ++ ':' :: natDec version) := by
    rw [pack_mutable_data_md]
    rfl
  rw [hform,
    splitOn_cons_of_not_mem ':' "mutable".toList _ (by decide),
    splitOn_cons_of_not_mem ':' (b64encode data_id) _ (colon_not_mem_b64encode data_id),
    splitOn_of_not_mem ':' (natDec version) (colon_not_mem_natDec version)]

theorem is_md_pack (data_id : List Nat) (version : Nat)
    (hid : ∀ b ∈ data_id, b < 256) :
    is_mutable_data_md (pack_mutable_data_md data_id version) = true := by
  rw [is_mutable_data_md, splitOn_pack]
  simp only [beq_self_eq_true, b64encode_shape data_id hid, Bool.true_and]
  rw [List.all_eq_true.mpr (natDec_digits version)]
  simp [List.isEmpty_iff, natDec_ne_nil version]

theorem unpack_pack (data_id : List Nat) (version : Nat)
    (hid : ∀ b ∈ data_id, b < 256) :
    unpack_mutable_data_md (pack_mutable_data_md data_id version) =
      some (data_id, version) := by
  rw [unpack_mutable_data_md, if_neg (by simp [is_md_pack data_id version hid]),
    splitOn_pack]
  simp only [List.getD_cons_succ, List.getD_cons_zero]
  rw [b64decode_b64encode data_id hid, decToNat_natDec]

/-- Does this key belong to `data_id` (i.e. unpack to it)? -/
def key_matches (data_id : List Nat) (k : List Char) : Bool :=
  match unpack_mutable_data_md k with
  | some (id', _) => id' == data_id
  | none => false

/-! ## Mutable data registry operations -/

/-- Python `dict.update` with a single-entry dict, over an association list
with unique keys. -/
def dictUpdate {α : Type} (d : List (List Char × α)) (kv : List Char × α) :
    List (List Char × α) :=
  if d.any (fun e => e.1 == kv.1) then
    d.map (fun e => if e.1 == kv.1 then (e.1, kv.2) else e)
  else d ++ [kv]

/-- Python `dict.update(other)`. -/
def dictUpdateAll {α : Type} (d : List (List Char × α))
    (links : List (List Char × α)) : List (List Char × α) :=
  links.foldl dictUpdate d

/-- `get_mutable_data_info_ex`: scan the data dict for the first key that is
a mutable-data key unpacking to `data_id`; return its value, version and
packed key.  Keys that fail `is_mutable_data_md` are skipped (the `continue`
in the source); the base64-failure case of `unpack_mutable_data_md` is also
a skip here, and is unreachable for keys matching the pattern. -/
def get_mutable_data_info_ex {α : Type} (data : List (List Char × α))
    (data_id : List Nat) : Option (α × Nat × List Char) :=
  match data with
  | [] => none
  | (k, val) :: rest =>
    match unpack_mutable_data_md k with
    | none => get_mutable_data_info_ex rest data_id
    | some (id', ver) =>
      if id' = data_id then some (val, ver, k)
      else get_mutable_data_info_ex rest data_id

/-- `put_mutable_data_info`: insert when the data section is empty or holds
no entry for `data_id`; reject (returning `False` and leaving the dict
unchanged) when the existing version is `≥` the new one; otherwise delete
the existing packed key and insert the new links.  (The source's
`existing_md = pack_mutable_data_md(data_id, version)` in the empty branch
is dead code and is omitted.) -/
def put_mutable_data_info {α : Type} (user_data_info : List (List Char × α))
    (data_id : List Nat) (version : Nat)
    (mutable_data_links : List (List Char × α)) : Bool × List (List Char × α) :=
  if user_data_info.isEmpty then
    (true, dictUpdateAll user_data_info mutable_data_links)
  else
    match get_mutable_data_info_ex user_data_info data_id with
    | none => (true, dictUpdateAll user_data_info mutable_data_links)
    | some (_, existing_version, existing_md) =>
      if existing_version ≥ version then (false, user_data_info)
      else
        (true, dictUpdateAll
          (user_data_info.filter (fun e => !(e.1 == existing_md)))
          mutable_data_links)

theorem ex_some_unpack {α : Type} (data : List (List Char × α)) (data_id : List Nat)
    (L : α) (v : Nat) (md : List Char)
    (h : get_mutable_data_info_ex data data_id = some (L, v, md)) :
    unpack_mutable_data_md md = some (data_id, v) ∧ (md, L) ∈ data := by
  induction data with
  | nil => simp [get_mutable_data_info_ex] at h
  | cons kv rest ih =>
    obtain ⟨k, val⟩ := kv
    rw [get_mutable_data_info_ex] at h
    split at h
    · obtain ⟨h1, h2⟩ := ih h
      exact ⟨h1, by simp [h2]⟩
    next id' ver heq =>
      split at h
      next hid =>
        have h' := Option.some.inj h
        simp only [Prod.mk.injEq] at h'
        obtain ⟨hL, hv, hk⟩ := h'
        subst hL hv hk hid
        exact ⟨heq, by simp⟩
      next hid =>
        obtain ⟨h1, h2⟩ := ih h
        exact ⟨h1, by simp [h2]⟩

/-! ## Claim C2 -/

/-- C2: if the data dict already holds a mutable entry for `data_id` with
version `v`, then for every `v' ≤ v` the put is rejected: it returns
`False` and the data mapping is returned completely unchanged. -/
theorem c2_put_mutable_stale {α : Type} (data : List (List Char × α))
    (data_id : List Nat) (L0 : α) (v : Nat) (md : List Char) (v' : Nat)
    (links : List (List Char × α))
    (hfind : get_mutable_data_info_ex data data_id = some (L0, v, md))
    (hle : v' ≤ v) :
    put_mutable_data_info data data_id v' links = (false, data) := by
  have hne : data ≠ [] := by
    intro hnil
    subst hnil
    simp [get_mutable_data_info_ex] at hfind
  have hEmpty : data.isEmpty = false := by
    cases data with
    | nil => exact absurd rfl hne
    | cons kv rest => rfl
  simp only [put_mutable_data_info, hEmpty, Bool.false_eq_true, if_false, hfind,
    ge_iff_le, hle, if_true]

/-- Witness for C2: one stored entry `(data_id = [104], version 1)` and a
stale put with the same version. -/
theorem c2_put_mutable_stale_witness :
    get_mutable_data_info_ex [(pack_mutable_data_md [104] 1, (0 : Nat))] [104] =
      some (0, 1, pack_mutable_data_md [104] 1) ∧
    put_mutable_data_info [(pack_mutable_data_md [104] 1, (0 : Nat))] [104] 1
        [(pack_mutable_data_md [104] 1, 5)] =
      (false, [(pack_mutable_data_md [104] 1, 0)]) :=
  ⟨by decide,
    c2_put_mutable_stale [(pack_mutable_data_md [104] 1, (0 : Nat))] [104] 0 1
      (pack_mutable_data_md [104] 1) 1 [(pack_mutable_data_md [104] 1, 5)]
      (by decide) (by omega)⟩

/-! ## Claim C3 -/

/-- C3: if the data dict holds exactly one mutable entry for `data_id`
(with version `v` under packed key `md`) and the put carries a newer
version `v' > v` keyed by the packed key for `(data_id, v')`, the call
returns `True` and the resulting dict contains exactly one entry for
`data_id` — the new one — while the old packed key is gone. -/
theorem c3_put_mutable_replaces {α : Type} (data : List (List Char × α))
    (data_id : List Nat) (L0 newL : α) (v v' : Nat) (md : List Char)
    (hid : ∀ b ∈ data_id, b < 256)
    (hfind : get_mutable_data_info_ex data data_id = some (L0, v, md))
    (huniq : ∀ kv ∈ data, key_matches data_id kv.1 = true → kv.1 = md)
    (hlt : v < v') :
    put_mutable_data_info data data_id v' [(pack_mutable_data_md data_id v', newL)] =
      (true, data.filter (fun e => !(e.1 == md)) ++
        [(pack_mutable_data_md data_id v', newL)]) ∧
    (data.filter (fun e => !(e.1 == md)) ++
        [(pack_mutable_data_md data_id v', newL)]).filter
        (fun e => key_matches data_id e.1) =
      [(pack_mutable_data_md data_id v', newL)] ∧
    md ∉ (data.filter (fun e => !(e.1 == md)) ++
        [(pack_mutable_data_md data_id v', newL)]).map Prod.fst := by
  obtain ⟨hmd_unpack, hmd_mem⟩ := ex_some_unpack data data_id L0 v md hfind
  have hnew_unpack : unpack_mutable_data_md (pack_mutable_data_md data_id v') =
      some (data_id, v') := unpack_pack data_id v' hid
  have hnew_matches : key_matches data_id (pack_mutable_data_md data_id v') = true := by
    rw [key_matches, hnew_unpack]
    simp
  have hnewk_ne_md : pack_mutable_data_md data_id v' ≠ md := by
    intro hcontra
    rw [hcontra, hmd_unpack] at hnew_unpack
    have := Option.some.inj hnew_unpack
    have hv : v = v' := congrArg Prod.snd this
    omega
  have hne : data ≠ [] := by
    intro hnil
    subst hnil
    simp [get_mutable_data_info_ex] at hfind
  have hEmpty : data.isEmpty = false := by
    cases data with
    | nil => exact absurd rfl hne
    | cons kv rest => rfl
  have hnot_in_filtered :
      ¬ (data.filter (fun e => !(e.1 == md))).any
          (fun e => e.1 == (pack_mutable_data_md data_id v', newL).1) = true := by
    intro hany
    rw [List.any_eq_true] at hany
    obtain ⟨e, hemem, hbeq⟩ := hany
    rw [List.mem_filter] at hemem
    obtain ⟨hedata, hne_md⟩ := hemem
    have hekey : e.1 = pack_mutable_data_md data_id v' := by
      simpa using hbeq
    have hmatch : key_matches data_id e.1 = true := by
      rw [hekey]
      exact hnew_matches
    have hemd : e.1 = md := huniq e hedata hmatch
    exact hnewk_ne_md (hekey.symm.trans hemd)
  have hupd : dictUpdateAll (data.filter (fun e => !(e.1 == md)))
      [(pack_mutable_data_md data_id v', newL)] =
      data.filter (fun e => !(e.1 == md)) ++
        [(pack_mutable_data_md data_id v', newL)] := by
    simp only [dictUpdateAll, List.foldl_cons, List.foldl_nil, dictUpdate]
    rw [if_neg hnot_in_filtered]
  have hfilter_nil : (data.filter (fun e => !(e.1 == md))).filter
      (fun e => key_matches data_id e.1) = [] := by
    rw [List.filter_eq_nil]
    intro e hemem
    rw [List.mem_filter] at hemem
    obtain ⟨hedata, hne_md⟩ := hemem
    intro hmatch
    have hemd : e.1 = md := huniq e hedata hmatch
    rw [hemd] at hne_md
    simp at hne_md
  refine ⟨?_, ?_, ?_⟩
  · simp only [put_mutable_data_info, hEmpty, Bool.false_eq_true, if_false, hfind]
    rw [if_neg (by omega : ¬ v ≥ v'), hupd]
  · rw [List.filter_append, hfilter_nil, List.nil_append]
    simp [hnew_matches]
  · intro hmem
    rw [List.map_append, List.mem_append] at hmem
    rcases hmem with hmem | hmem
    · rw [List.mem_map] at hmem
      obtain ⟨e, hemem, hekey⟩ := hmem
      rw [List.mem_filter] at hemem
      obtain ⟨hedata, hne_md⟩ := hemem
      rw [hekey] at hne_md
      simp at hne_md
    · simp only [List.map_cons, List.map_nil, List.mem_singleton] at hmem
      exact hnewk_ne_md hmem.symm

/-- Witness for C3: one stored entry `(data_id = [104], version 1)` replaced
by a put with version 2. -/
theorem c3_put_mutable_replaces_witness :
    get_mutable_data_info_ex [(pack_mutable_data_md [104] 1, (0 : Nat))] [104] =
      some (0, 1, pack_mutable_data_md [104] 1) ∧
    put_mutable_data_info [(pack_mutable_data_md [104] 1, (0 : Nat))] [104] 2
        [(pack_mutable_data_md [104] 2, 7)] =
      (true, [(pack_mutable_data_md [104] 1, (0 : Nat))].filter
          (fun e : List Char × Nat => !(e.1 == pack_mutable_data_md [104] 1)) ++
        [(pack_mutable_data_md [104] 2, 7)]) ∧
    ([(pack_mutable_data_md [104] 1, (0 : Nat))].filter
          (fun e : List Char × Nat => !(e.1 == pack_mutable_data_md [104] 1)) ++
        [(pack_mutable_data_md [104] 2, 7)]).filter
        (fun e : List Char × Nat => key_matches [104] e.1) = [(pack_mutable_data_md [104] 2, 7)] ∧
    pack_mutable_data_md [104] 1 ∉
      ([(pack_mutable_data_md [104] 1, (0 : Nat))].filter
          (fun e : List Char × Nat => !(e.1 == pack_mutable_data_md [104] 1)) ++
        [(pack_mutable_data_md [104] 2, 7)]).map Prod.fst :=
  ⟨by decide,
    c3_put_mutable_replaces [(pack_mutable_data_md [104] 1, (0 : Nat))] [104] 0 7 1 2
      (pack_mutable_data_md [104] 1) (by decide) (by decide) (by decide) (by omega)⟩

end UserDb
